import Mathlib

/-!
Verification of the Othello engine: board and move model (othello.ts),
the heuristic evaluation and depth-bounded alpha-beta search (minimax.ts),
and the per-move scores of the move-rating flow
(real-time-decision-visualization.ts).
-/

namespace OthelloDojo

/-- The two players, TS type `Player = 'black' | 'white'`. -/
inductive Player where
  | black
  | white
deriving DecidableEq, Repr

/-- `getOpponent` from othello.ts. -/
def getOpponent : Player → Player
  | .black => .white
  | .white => .black

/-- A cell, TS type `CellState = Player | 'empty'`. -/
inductive CellState where
  | empty
  | black
  | white
deriving DecidableEq, Repr

/-- The cell value holding a disc of the given player color (in TS the
player string itself is stored in the cell). -/
def Player.cell : Player → CellState
  | .black => .black
  | .white => .white

/-- The 8×8 board (`BoardState`).  The TS value is an array of arrays of
cells; claims only concern well-formed 8×8 boards, so the board is a total
assignment of a cell state to each of the 64 coordinates. -/
abbrev Board := Fin 8 → Fin 8 → CellState

/-- A move, TS `{row: number, col: number}`. -/
structure Move where
  row : Int
  col : Int
deriving DecidableEq, Repr

/-- `DIRECTIONS` from othello.ts: the 8 unit direction vectors. -/
def DIRECTIONS : List (Int × Int) :=
  [(-1, -1), (-1, 0), (-1, 1), (0, -1), (0, 1), (1, -1), (1, 0), (1, 1)]

/-- `isInsideBoard` from othello.ts. -/
def isInsideBoard (row col : Int) : Bool :=
  0 ≤ row && row < 8 && 0 ≤ col && col < 8

/-- The in-range double index `board[row][col]`: `some` exactly when both
coordinates are inside the board. -/
def cellAt (b : Board) (row col : Int) : Option CellState :=
  if h : 0 ≤ row ∧ row < 8 ∧ 0 ≤ col ∧ col < 8 then
    some (b ⟨row.toNat, by omega⟩ ⟨col.toNat, by omega⟩)
  else none

/-- The raw JS access `board[row][col]`.  Outer `none` models the TypeError
raised when `row` is out of range (`board[row]` is `undefined`, and indexing
`undefined` faults).  `some none` models the defined value `undefined`
obtained when `row` is in range but `col` is not. -/
def cellAtJs (b : Board) (row col : Int) : Option (Option CellState) :=
  if 0 ≤ row ∧ row < 8 then some (cellAt b row col) else none

/-- The in-range array write `newBoard[row][col] = v`.  The engine only ever
writes in-range cells on the modelled paths; an out-of-range write is a
no-op here. -/
def setCell (b : Board) (row col : Int) (v : CellState) : Board :=
  fun r c => if (r : Int) = row ∧ (c : Int) = col then v else b r c

/-- `createInitialBoard` from othello.ts: all empty, then the four center
discs are placed. -/
def createInitialBoard : Board :=
  setCell (setCell (setCell (setCell (fun _ _ => .empty) 3 3 .white) 3 4 .black)
    4 3 .black) 4 4 .white

/-- The `while` loop inside `getFlipsForMove` for one direction: starting at
`(r, c)` and stepping by `(dr, dc)`, collect the run of cells holding the
opponent color while inside the board, and return the collected run together
with the final coordinates.  On an 8×8 board such a run has at most 8 cells
(the coordinate moved by the direction takes distinct in-range values), so
the fuel of 8 supplied at every call site makes this exactly the source
loop. -/
def scanRun (b : Board) (opp : CellState) (dr dc : Int) :
    Nat → Int → Int → List Move × Int × Int
  | 0, r, c => ([], r, c)
  | fuel + 1, r, c =>
    if cellAt b r c = some opp then
      let rest := scanRun b opp dr dc fuel (r + dr) (c + dc)
      (⟨r, c⟩ :: rest.1, rest.2)
    else ([], r, c)

/-- The direction loop of `getFlipsForMove` (othello.ts lines 33–47), also
duplicated verbatim inside the private `applyMove` of the move-rating flow:
for each direction, scan the run of opponent cells starting next to
`(row, col)`; if the run ends on a cell of the moving player inside the
board, the run is appended to the flips. -/
def flipsScan (b : Board) (player : Player) (row col : Int) : List Move :=
  DIRECTIONS.foldl (fun tilesToFlip d =>
    let s := scanRun b (getOpponent player).cell d.1 d.2 8 (row + d.1) (col + d.2)
    if cellAt b s.2.1 s.2.2 = some player.cell then tilesToFlip ++ s.1
    else tilesToFlip) []

/-- `getFlipsForMove` from othello.ts.  The first statement reads
`board[row][col]`, so a row out of range raises a TypeError (modelled as
`none`); a col out of range with the row in range reads `undefined`, which
is `!== 'empty'`, so the function returns `[]`. -/
def getFlipsForMove (b : Board) (player : Player) (row col : Int) :
    Option (List Move) :=
  match cellAtJs b row col with
  | none => none
  | some v =>
    if v ≠ some .empty then some []
    else some (flipsScan b player row col)

/-- `isValidMove` from othello.ts: the flip list is non-empty (a thrown
TypeError propagates). -/
def isValidMove (b : Board) (player : Player) (row col : Int) : Option Bool :=
  (getFlipsForMove b player row col).map (fun l => decide (0 < l.length))

/-- `getValidMoves` from othello.ts: the two nested loops collect, in
row-major order over rows 0..7 and columns 0..7, every cell that is a valid
move.  All probed coordinates are in range, so no access faults. -/
def getValidMoves (b : Board) (player : Player) : List Move :=
  (List.range 8).flatMap (fun r : Nat =>
    (List.range 8).filterMap (fun c : Nat =>
      if isValidMove b player (r : Int) (c : Int) = some true then
        some ⟨(r : Int), (c : Int)⟩
      else none))

/-- `applyMove` from othello.ts: computes the flips (a TypeError from a row
out of range propagates); when the flip list is empty and the target cell is
empty, the input board itself is returned; otherwise a copy with the target
cell and every flipped cell set to the player color. -/
def applyMove (b : Board) (player : Player) (row col : Int) : Option Board :=
  match getFlipsForMove b player row col with
  | none => none
  | some tilesToFlip =>
    if tilesToFlip.length = 0 ∧ cellAt b row col = some .empty then some b
    else some (tilesToFlip.foldl (fun nb t => setCell nb t.row t.col player.cell)
      (setCell b row col player.cell))

/-- The score record `{black, white}` returned by `getScore`. -/
structure Score where
  black : Int
  white : Int
deriving DecidableEq, Repr

/-- The TS index `score[player]`. -/
def Score.get (s : Score) : Player → Int
  | .black => s.black
  | .white => s.white

/-- `getScore` from othello.ts: tally of discs of each color. -/
def getScore (b : Board) : Score :=
  (List.finRange 8).foldl (fun s r =>
    (List.finRange 8).foldl (fun s c =>
      match b r c with
      | .black => { s with black := s.black + 1 }
      | .white => { s with white := s.white + 1 }
      | .empty => s) s) ⟨0, 0⟩

/-- The number of empty cells of a board; the termination measure of the
search recursion (each applied legal move fills an empty cell). -/
def emptyCount (b : Board) : Nat :=
  (Finset.univ.filter (fun rc : Fin 8 × Fin 8 => b rc.1 rc.2 = .empty)).card

/-- The JS numbers handled by the search: integers extended with the two
infinities used as initial bounds and seeds. -/
inductive EInt where
  | negInf
  | fin (n : Int)
  | posInf
deriving DecidableEq, Repr

/-- The JS comparison `a <= b` on these numbers. -/
def EInt.ble : EInt → EInt → Bool
  | .negInf, _ => true
  | _, .posInf => true
  | .posInf, _ => false
  | _, .negInf => false
  | .fin a, .fin b => decide (a ≤ b)

/-- The JS comparison `a < b`. -/
def EInt.blt (a b : EInt) : Bool := !(EInt.ble b a)

/-- JS `Math.max` (no NaN arises in the engine). -/
def EInt.max (a b : EInt) : EInt := if EInt.ble a b then b else a

/-- JS `Math.min`. -/
def EInt.min (a b : EInt) : EInt := if EInt.ble a b then a else b

instance : LinearOrder EInt where
  le a b := EInt.ble a b = true
  lt a b := EInt.blt a b = true
  le_refl a := by cases a <;> simp [EInt.ble]
  le_trans a b c := by
    cases a <;> cases b <;> cases c <;> simp [EInt.ble] <;> omega
  le_antisymm a b := by
    cases a <;> cases b <;> simp [EInt.ble] <;> omega
  le_total a b := by
    cases a <;> cases b <;> simp [EInt.ble] <;> omega
  lt_iff_le_not_le a b := by
    cases a <;> cases b <;> simp [EInt.ble, EInt.blt] <;> omega
  decidableLE a b := inferInstanceAs (Decidable (_ = true))

instance (a b : EInt) : Decidable (a ≤ b) :=
  inferInstanceAs (Decidable (EInt.ble a b = true))

instance (a b : EInt) : Decidable (a < b) :=
  inferInstanceAs (Decidable (EInt.blt a b = true))

theorem EInt.ble_iff {a b : EInt} : EInt.ble a b = true ↔ a ≤ b := Iff.rfl

theorem EInt.blt_iff {a b : EInt} : EInt.blt a b = true ↔ a < b := Iff.rfl

theorem EInt.max_eq (a b : EInt) : EInt.max a b = Max.max a b := by
  rw [EInt.max, max_def]
  cases hc : EInt.ble a b
  · rw [if_neg (fun h : a ≤ b => by rw [EInt.ble_iff.mpr h] at hc; exact Bool.noConfusion hc)]
    simp
  · rw [if_pos (EInt.ble_iff.mp hc)]
    simp

theorem EInt.min_eq (a b : EInt) : EInt.min a b = Min.min a b := by
  rw [EInt.min, min_def]
  cases hc : EInt.ble a b
  · rw [if_neg (fun h : a ≤ b => by rw [EInt.ble_iff.mpr h] at hc; exact Bool.noConfusion hc)]
    simp
  · rw [if_pos (EInt.ble_iff.mp hc)]
    simp

/-- `evaluateBoard` from minimax.ts (the deployed evaluator): piece
difference, corner control with weight 25, mobility with weight 5, and edge
control with weight 5 over the 24 non-corner edge cells. -/
def evaluateBoard (b : Board) (player : Player) : Int :=
  let score := getScore b
  let opponent := getOpponent player
  let pieceDifference := score.get player - score.get opponent
  let corners : List (Int × Int) := [(0, 0), (0, 7), (7, 0), (7, 7)]
  let cornerWeight : Int := 25
  let cornerBonus := corners.foldl (fun acc rc =>
    if cellAt b rc.1 rc.2 = some player.cell then acc + cornerWeight
    else if cellAt b rc.1 rc.2 = some opponent.cell then acc - cornerWeight
    else acc) 0
  let playerMoves : Int := (getValidMoves b player).length
  let opponentMoves : Int := (getValidMoves b opponent).length
  let mobility := playerMoves - opponentMoves
  let mobilityWeight : Int := 5
  let edgeWeight : Int := 5
  let edgeBonus := (List.range' 1 6).foldl (fun acc i =>
    let i : Int := (i : Int)
    let acc := if cellAt b 0 i = some player.cell then acc + edgeWeight else acc
    let acc := if cellAt b 7 i = some player.cell then acc + edgeWeight else acc
    let acc := if cellAt b i 0 = some player.cell then acc + edgeWeight else acc
    let acc := if cellAt b i 7 = some player.cell then acc + edgeWeight else acc
    let acc := if cellAt b 0 i = some opponent.cell then acc - edgeWeight else acc
    let acc := if cellAt b 7 i = some opponent.cell then acc - edgeWeight else acc
    let acc := if cellAt b i 0 = some opponent.cell then acc - edgeWeight else acc
    let acc := if cellAt b i 7 = some opponent.cell then acc - edgeWeight else acc
    acc) 0
  pieceDifference + cornerBonus + mobility * mobilityWeight + edgeBonus

/-- The `for` loop of `minimax` (minimax.ts lines 74–96): fold over the
moves, carrying the best value, the best move, and the evolving alpha and
beta bounds; the recursive search on a child board is abstracted as
`recurse`, the application of a move as `apply` (a propagated `none` is a
thrown error, which never happens on valid moves).  After each iteration the
loop stops early when `beta <= alpha`. -/
def abLoop (recurse : Board → EInt → EInt → Option (EInt × Option Move))
    (apply : Move → Option Board) (isMaximizingPlayer : Bool) :
    List Move → EInt → Option Move → EInt → EInt → Option (EInt × Option Move)
  | [], bestValue, bestMove, _, _ => some (bestValue, bestMove)
  | move :: rest, bestValue, bestMove, alpha, beta =>
    match apply move with
    | none => none
    | some newBoard =>
      match recurse newBoard alpha beta with
      | none => none
      | some (score, _) =>
        let isBetter := if isMaximizingPlayer then bestValue.blt score
          else score.blt bestValue
        let bestValue' := if isBetter then score else bestValue
        let bestMove' := if isBetter then some move else bestMove
        let alpha' := if isMaximizingPlayer then EInt.max alpha bestValue' else alpha
        let beta' := if isMaximizingPlayer then beta else EInt.min beta bestValue'
        if beta'.ble alpha' then some (bestValue', bestMove')
        else abLoop recurse apply isMaximizingPlayer rest bestValue' bestMove' alpha' beta'

/-- `minimax` from minimax.ts, indexed by fuel: `none` is returned when the
fuel runs out.  A fuel of `emptyCount board + 1` always suffices because
every recursive call applies a legal move, which fills an empty cell. -/
def minimaxF : Nat → Board → Int → Bool → Player → EInt → EInt →
    Option (EInt × Option Move)
  | 0, _, _, _, _, _, _ => none
  | fuel + 1, board, depth, isMaximizingPlayer, player, alpha, beta =>
    let currentPlayer := if isMaximizingPlayer then player else getOpponent player
    let moves := getValidMoves board currentPlayer
    if depth = 0 ∨ moves = [] then
      some (.fin (evaluateBoard board player), none)
    else
      abLoop (fun nb a bt => minimaxF fuel nb (depth - 1) (!isMaximizingPlayer) player a bt)
        (fun m => applyMove board currentPlayer m.row m.col)
        isMaximizingPlayer moves
        (if isMaximizingPlayer then .negInf else .posInf) moves.head? alpha beta

/-- `minimax` with the fuel instantiated; the sentinel of `getD` is never
reached (see the fuel adequacy theorem). -/
def minimax (board : Board) (depth : Int) (isMaximizingPlayer : Bool)
    (player : Player) (alpha beta : EInt) : EInt × Option Move :=
  (minimaxF (emptyCount board + 1) board depth isMaximizingPlayer player
    alpha beta).getD (.fin 0, none)

/-- The move loop of the reference full-width minimax: identical to `abLoop`
but with the pruning bounds removed. -/
def npLoop (recurse : Board → Option (EInt × Option Move))
    (apply : Move → Option Board) (isMaximizingPlayer : Bool) :
    List Move → EInt → Option Move → Option (EInt × Option Move)
  | [], bestValue, bestMove => some (bestValue, bestMove)
  | move :: rest, bestValue, bestMove =>
    match apply move with
    | none => none
    | some newBoard =>
      match recurse newBoard with
      | none => none
      | some (score, _) =>
        let isBetter := if isMaximizingPlayer then bestValue.blt score
          else score.blt bestValue
        npLoop recurse apply isMaximizingPlayer rest
          (if isBetter then score else bestValue)
          (if isBetter then some move else bestMove)

/-- The reference recursion of the pruned-versus-unpruned claim: the same
recursion as `minimaxF` with alpha-beta pruning disabled (full width, same
move order, same leaf evaluation). -/
def minimaxNPF : Nat → Board → Int → Bool → Player → Option (EInt × Option Move)
  | 0, _, _, _, _ => none
  | fuel + 1, board, depth, isMaximizingPlayer, player =>
    let currentPlayer := if isMaximizingPlayer then player else getOpponent player
    let moves := getValidMoves board currentPlayer
    if depth = 0 ∨ moves = [] then
      some (.fin (evaluateBoard board player), none)
    else
      npLoop (fun nb => minimaxNPF fuel nb (depth - 1) (!isMaximizingPlayer) player)
        (fun m => applyMove board currentPlayer m.row m.col)
        isMaximizingPlayer moves
        (if isMaximizingPlayer then .negInf else .posInf) moves.head?

/-- The reference full-width minimax with the fuel instantiated. -/
def minimaxNP (board : Board) (depth : Int) (isMaximizingPlayer : Bool)
    (player : Player) : EInt × Option Move :=
  (minimaxNPF (emptyCount board + 1) board depth isMaximizingPlayer
    player).getD (.fin 0, none)

/-- The private `applyMove` duplicated inside the move-rating flow
(real-time-decision-visualization.ts lines 156–187).  It first checks the
bounds and that the target cell is empty (returning the input board
otherwise), then places the disc on the copy and scans the already-updated
copy for flips with the same direction loop as the engine. -/
def applyMoveFlow (b : Board) (player : Player) (row col : Int) : Board :=
  if row < 0 ∨ 8 ≤ row ∨ col < 0 ∨ 8 ≤ col ∨ cellAt b row col ≠ some .empty then b
  else
    let newBoard := setCell b row col player.cell
    let tilesToFlip := flipsScan newBoard player row col
    tilesToFlip.foldl (fun nb t => setCell nb t.row t.col player.cell) newBoard

/-- The per-move values computed by `rateMoveFlow`
(real-time-decision-visualization.ts lines 115–119): each legal move is
applied with the private `applyMove` of the flow, and the child position is
searched at depth `difficulty > 1 ? difficulty - 1 : 1` as a minimizing node
whose perspective player is the opponent of the mover. -/
def rateMoveScores (board : Board) (currentPlayer : Player)
    (difficulty : Int) : List EInt :=
  (getValidMoves board currentPlayer).map (fun move =>
    let tempBoard := applyMoveFlow board currentPlayer move.row move.col
    (minimax tempBoard (if 1 < difficulty then difficulty - 1 else 1) false
      (getOpponent currentPlayer) .negInf .posInf).1)

/-! ### Basic lemmas about cells, writes and scans -/

theorem Player.cell_ne_empty (p : Player) : p.cell ≠ CellState.empty := by
  cases p <;> simp [Player.cell]

theorem getOpponent_cell_ne (p : Player) : (getOpponent p).cell ≠ p.cell := by
  cases p <;> simp [Player.cell, getOpponent]

theorem inRange_of_cellAt {b : Board} {row col : Int} {x : CellState}
    (h : cellAt b row col = some x) :
    0 ≤ row ∧ row < 8 ∧ 0 ≤ col ∧ col < 8 := by
  unfold cellAt at h
  split at h
  · assumption
  · exact Option.noConfusion h

theorem cellAt_setCell_ne (b : Board) (row col : Int) (v : CellState)
    (r c : Int) (h : ¬(r = row ∧ c = col)) :
    cellAt (setCell b row col v) r c = cellAt b r c := by
  unfold cellAt
  split
  case isTrue hin =>
    simp only [setCell]
    rw [if_neg]
    intro hc
    rcases hc with ⟨h1, h2⟩
    exact h ⟨by omega, by omega⟩
  case isFalse => rfl

theorem cellAt_setCell_self (b : Board) (row col : Int) (v : CellState)
    (hin : 0 ≤ row ∧ row < 8 ∧ 0 ≤ col ∧ col < 8) :
    cellAt (setCell b row col v) row col = some v := by
  unfold cellAt
  rw [dif_pos hin]
  simp only [setCell]
  rw [if_pos]
  constructor <;> omega

theorem cellAt_eq (b : Board) (r c : Fin 8) :
    cellAt b (r : Int) (c : Int) = some (b r c) := by
  have hr := r.isLt
  have hc := c.isLt
  unfold cellAt
  rw [dif_pos ⟨Int.natCast_nonneg _, by exact_mod_cast hr, Int.natCast_nonneg _,
    by exact_mod_cast hc⟩]
  congr 1

/-- Every cell collected by the direction scan holds the scanned color. -/
theorem scanRun_mem {b : Board} {opp : CellState} {dr dc : Int} :
    ∀ (fuel : Nat) (r c : Int) (m : Move),
      m ∈ (scanRun b opp dr dc fuel r c).1 →
      cellAt b m.row m.col = some opp := by
  intro fuel
  induction fuel with
  | zero => intro r c m hm; simp [scanRun] at hm
  | succ fuel ih =>
    intro r c m hm
    rw [scanRun] at hm
    split at hm
    case isTrue hcell =>
      simp only [List.mem_cons] at hm
      rcases hm with hm | hm
      · subst hm; exact hcell
      · exact ih _ _ _ hm
    case isFalse => simp at hm

/-- The final coordinates of the direction scan lie on the scanned ray. -/
theorem scanRun_final {b : Board} {opp : CellState} {dr dc : Int} :
    ∀ (fuel : Nat) (r c : Int),
      ∃ j : Int, 0 ≤ j ∧ (scanRun b opp dr dc fuel r c).2.1 = r + j * dr ∧
        (scanRun b opp dr dc fuel r c).2.2 = c + j * dc := by
  intro fuel
  induction fuel with
  | zero => intro r c; exact ⟨0, by omega, by simp [scanRun], by simp [scanRun]⟩
  | succ fuel ih =>
    intro r c
    rw [scanRun]
    split
    case isTrue =>
      obtain ⟨j, hj, h1, h2⟩ := ih (r + dr) (c + dc)
      refine ⟨j + 1, by omega, ?_, ?_⟩
      · simp only [h1]; ring
      · simp only [h2]; ring
    case isFalse => exact ⟨0, by omega, by simp, by simp⟩

/-- The direction scan does not depend on cells off its own ray. -/
theorem scanRun_congr {b : Board} {row col : Int} {v : CellState}
    {opp : CellState} {dr dc : Int} :
    ∀ (fuel : Nat) (r c : Int),
      (h : ∀ k : Int, 0 ≤ k → ¬(r + k * dr = row ∧ c + k * dc = col)) →
      scanRun (setCell b row col v) opp dr dc fuel r c =
        scanRun b opp dr dc fuel r c := by
  intro fuel
  induction fuel with
  | zero => intro r c _; rfl
  | succ fuel ih =>
    intro r c h
    have h0 : ¬(r = row ∧ c = col) := by
      have := h 0 (by omega); simpa using this
    rw [scanRun, scanRun, cellAt_setCell_ne b row col v r c h0]
    split
    · rw [ih (r + dr) (c + dc)]
      intro k hk hc
      rcases hc with ⟨h1, h2⟩
      refine h (k + 1) (by omega) ⟨?_, ?_⟩
      · have e : (k + 1) * dr = k * dr + dr := by ring
        rw [e]; linarith
      · have e : (k + 1) * dc = k * dc + dc := by ring
        rw [e]; linarith
    · rfl

/-! ### The flip list and the legality predicate -/

theorem foldl_flips_mem (b : Board) (p : Player) (row col : Int) :
    ∀ (l : List (Int × Int)) (acc : List Move),
      (∀ m ∈ acc, cellAt b m.row m.col = some (getOpponent p).cell) →
      ∀ m ∈ l.foldl (fun tilesToFlip d =>
        let s := scanRun b (getOpponent p).cell d.1 d.2 8 (row + d.1) (col + d.2)
        if cellAt b s.2.1 s.2.2 = some p.cell then tilesToFlip ++ s.1
        else tilesToFlip) acc,
      cellAt b m.row m.col = some (getOpponent p).cell := by
  intro l
  induction l with
  | nil => intro acc hacc m hm; exact hacc m hm
  | cons d rest ih =>
    intro acc hacc m hm
    rw [List.foldl_cons] at hm
    refine ih _ ?_ m hm
    intro m' hm'
    dsimp only at hm'
    split at hm'
    · rcases List.mem_append.mp hm' with h | h
      · exact hacc m' h
      · exact scanRun_mem 8 _ _ m' h
    · exact hacc m' hm'

/-- Every flipped cell holds the opponent color on the input board. -/
theorem flipsScan_mem {b : Board} {p : Player} {row col : Int} {m : Move}
    (hm : m ∈ flipsScan b p row col) :
    cellAt b m.row m.col = some (getOpponent p).cell := by
  unfold flipsScan at hm
  exact foldl_flips_mem b p row col DIRECTIONS [] (by simp) m hm

theorem DIRECTIONS_ne_zero : ∀ d ∈ DIRECTIONS, ¬(d.1 = 0 ∧ d.2 = 0) := by
  decide

theorem flips_step_congr (b : Board) (row col : Int) (v : CellState) (p : Player)
    {d1 d2 : Int} (hd : ¬(d1 = 0 ∧ d2 = 0)) (acc : List Move) :
    (let s := scanRun (setCell b row col v) (getOpponent p).cell d1 d2 8
      (row + d1) (col + d2)
     if cellAt (setCell b row col v) s.2.1 s.2.2 = some p.cell then acc ++ s.1
     else acc) =
    (let s := scanRun b (getOpponent p).cell d1 d2 8 (row + d1) (col + d2)
     if cellAt b s.2.1 s.2.2 = some p.cell then acc ++ s.1 else acc) := by
  have hray : ∀ k : Int, 0 ≤ k →
      ¬(row + d1 + k * d1 = row ∧ col + d2 + k * d2 = col) := by
    intro k hk hc
    rcases hc with ⟨h1, h2⟩
    apply hd
    have e1 : (k + 1) * d1 = 0 := by ring_nf; linarith
    have e2 : (k + 1) * d2 = 0 := by ring_nf; linarith
    have hk1 : k + 1 ≠ 0 := by omega
    exact ⟨by rcases mul_eq_zero.mp e1 with h | h; exact absurd h hk1; exact h,
      by rcases mul_eq_zero.mp e2 with h | h; exact absurd h hk1; exact h⟩
  dsimp only
  rw [scanRun_congr 8 (row + d1) (col + d2) hray]
  obtain ⟨j, hj, h1, h2⟩ :=
    @scanRun_final b (getOpponent p).cell d1 d2 8 (row + d1) (col + d2)
  rw [cellAt_setCell_ne]
  rw [h1, h2]
  intro hc
  exact hray j hj hc

/-- The flip scan of the rating flow, performed on the board with the target
cell already set, agrees with the scan of the input board: no scanned ray
passes through the target cell. -/
theorem flipsScan_setCell (b : Board) (row col : Int) (v : CellState)
    (p : Player) :
    flipsScan (setCell b row col v) p row col = flipsScan b p row col := by
  unfold flipsScan
  apply List.foldl_ext
  intro acc d hd
  exact flips_step_congr b row col v p (DIRECTIONS_ne_zero d hd) acc

theorem getFlipsForMove_of_empty {b : Board} {row col : Int} (p : Player)
    (he : cellAt b row col = some .empty) :
    getFlipsForMove b p row col = some (flipsScan b p row col) := by
  have hin := inRange_of_cellAt he
  unfold getFlipsForMove cellAtJs
  rw [if_pos ⟨hin.1, hin.2.1⟩]
  dsimp only
  rw [if_neg (by rw [he]; simp)]

theorem getFlipsForMove_of_not_empty {b : Board} {row col : Int} (p : Player)
    (hr : 0 ≤ row ∧ row < 8) (ho : cellAt b row col ≠ some .empty) :
    getFlipsForMove b p row col = some [] := by
  unfold getFlipsForMove cellAtJs
  rw [if_pos hr]
  dsimp only
  rw [if_pos (by simpa using ho)]

theorem getFlipsForMove_of_row_oor {b : Board} {row col : Int} (p : Player)
    (hr : ¬(0 ≤ row ∧ row < 8)) :
    getFlipsForMove b p row col = none := by
  unfold getFlipsForMove cellAtJs
  rw [if_neg hr]

theorem isValidMove_true_iff (b : Board) (p : Player) (row col : Int) :
    isValidMove b p row col = some true ↔
      cellAt b row col = some .empty ∧ flipsScan b p row col ≠ [] := by
  unfold isValidMove
  by_cases hr : 0 ≤ row ∧ row < 8
  · by_cases he : cellAt b row col = some .empty
    · rw [getFlipsForMove_of_empty p he]
      simp only [Option.map_some', Option.some.injEq, decide_eq_true_eq]
      constructor
      · intro h
        exact ⟨he, fun hnil => by rw [hnil] at h; simp at h⟩
      · rintro ⟨-, hne⟩
        exact List.length_pos.mpr hne
    · rw [getFlipsForMove_of_not_empty p hr he]
      simp only [Option.map_some', List.length_nil, Option.some.injEq]
      constructor
      · intro h; simp at h
      · rintro ⟨h, -⟩; exact absurd h he
  · rw [getFlipsForMove_of_row_oor p hr]
    simp only [Option.map_none']
    constructor
    · intro h; simp at h
    · rintro ⟨h, -⟩
      have := inRange_of_cellAt h
      exact absurd ⟨this.1, this.2.1⟩ hr

/-- Membership in `getValidMoves`: exactly the empty cells with a non-empty
flip list (coordinates in range follow). -/
theorem mem_getValidMoves {b : Board} {p : Player} {m : Move} :
    m ∈ getValidMoves b p ↔
      cellAt b m.row m.col = some .empty ∧ flipsScan b p m.row m.col ≠ [] := by
  unfold getValidMoves
  constructor
  · intro hm
    obtain ⟨r, hr, hm2⟩ := List.mem_flatMap.mp hm
    obtain ⟨c, hc, hif⟩ := List.mem_filterMap.mp hm2
    split at hif
    case isTrue hvalid =>
      have hmeq := Option.some.inj hif
      subst hmeq
      exact (isValidMove_true_iff b p r c).mp hvalid
    case isFalse => exact Option.noConfusion hif
  · rintro ⟨he, hf⟩
    have hin := inRange_of_cellAt he
    have er : ((m.row.toNat : Nat) : Int) = m.row := by omega
    have ec : ((m.col.toNat : Nat) : Int) = m.col := by omega
    have h1 : m.row.toNat ∈ List.range 8 := List.mem_range.mpr (by omega)
    have h2 : m.col.toNat ∈ List.range 8 := List.mem_range.mpr (by omega)
    refine List.mem_flatMap.mpr ⟨m.row.toNat, h1,
      List.mem_filterMap.mpr ⟨m.col.toNat, h2, ?_⟩⟩
    rw [er, ec, if_pos ((isValidMove_true_iff b p m.row m.col).mpr ⟨he, hf⟩)]

/-! ### The three behaviors of `applyMove` -/

theorem applyMove_of_valid {b : Board} {p : Player} {row col : Int}
    (he : cellAt b row col = some .empty) (hf : flipsScan b p row col ≠ []) :
    applyMove b p row col = some ((flipsScan b p row col).foldl
      (fun nb t => setCell nb t.row t.col p.cell) (setCell b row col p.cell)) := by
  unfold applyMove
  rw [getFlipsForMove_of_empty p he]
  dsimp only
  rw [if_neg]
  rintro ⟨hlen, -⟩
  exact hf (List.length_eq_zero.mp hlen)

theorem applyMove_of_occupied {b : Board} {p : Player} {row col : Int}
    (hr : 0 ≤ row ∧ row < 8)
    (ho : cellAt b row col ≠ some .empty) :
    applyMove b p row col = some (setCell b row col p.cell) := by
  unfold applyMove
  rw [getFlipsForMove_of_not_empty p hr ho]
  dsimp only
  rw [if_neg (fun hc => ho hc.2)]
  rfl

theorem applyMove_of_no_flips {b : Board} {p : Player} {row col : Int}
    (he : cellAt b row col = some .empty) (hf : flipsScan b p row col = []) :
    applyMove b p row col = some b := by
  unfold applyMove
  rw [getFlipsForMove_of_empty p he]
  dsimp only
  rw [hf, if_pos ⟨rfl, he⟩]

/-- Reading a cell after the fold of writes of the flip loop. -/
theorem foldl_setCell_get (v : CellState) :
    ∀ (l : List Move) (base : Board) (r c : Fin 8),
      (l.foldl (fun nb t => setCell nb t.row t.col v) base) r c =
      if (⟨(r : Int), (c : Int)⟩ : Move) ∈ l then v else base r c := by
  intro l
  induction l with
  | nil => intro base r c; simp
  | cons t rest ih =>
    intro base r c
    rw [List.foldl_cons, ih]
    by_cases hm : (⟨(r : Int), (c : Int)⟩ : Move) ∈ rest
    · rw [if_pos hm, if_pos (List.mem_cons_of_mem _ hm)]
    · rw [if_neg hm]
      simp only [setCell]
      by_cases ht : ((r : Int) = t.row ∧ (c : Int) = t.col)
      · rw [if_pos ht]
        have hmem : (⟨(r : Int), (c : Int)⟩ : Move) ∈ t :: rest := by
          have heq : (⟨(r : Int), (c : Int)⟩ : Move) = t := by
            cases t
            simp_all
          rw [heq]
          exact List.mem_cons_self _ _
        rw [if_pos hmem]
      · rw [if_neg ht, if_neg]
        intro hmem
        rcases List.mem_cons.mp hmem with h | h
        · apply ht
          cases t
          simp_all
        · exact hm h

/-! ### Termination: applying a legal move decreases the empty count -/

theorem cellAt_eq_some {b : Board} {row col : Int} {x : CellState}
    (h : cellAt b row col = some x) :
    ∃ (r : Fin 8) (c : Fin 8), (r : Int) = row ∧ (c : Int) = col ∧ b r c = x := by
  have hin := inRange_of_cellAt h
  refine ⟨⟨row.toNat, by omega⟩, ⟨col.toNat, by omega⟩, ?_, ?_, ?_⟩
  · show ((row.toNat : Nat) : Int) = row
    omega
  · show ((col.toNat : Nat) : Int) = col
    omega
  · unfold cellAt at h
    rw [dif_pos hin] at h
    exact Option.some.inj h

theorem emptyCount_applyMove {b : Board} {p : Player} {row col : Int}
    {nb : Board} (he : cellAt b row col = some .empty)
    (hf : flipsScan b p row col ≠ [])
    (happ : applyMove b p row col = some nb) :
    emptyCount nb < emptyCount b := by
  rw [applyMove_of_valid he hf] at happ
  have hnb := Option.some.inj happ
  subst hnb
  obtain ⟨fr, fc, hfr, hfc, hbe⟩ := cellAt_eq_some he
  unfold emptyCount
  apply Finset.card_lt_card
  constructor
  · intro rc hrc
    simp only [Finset.mem_filter, Finset.mem_univ, true_and] at hrc ⊢
    rw [foldl_setCell_get] at hrc
    split at hrc
    · exact absurd hrc (Player.cell_ne_empty p)
    · simp only [setCell] at hrc
      split at hrc
      · exact absurd hrc (Player.cell_ne_empty p)
      · exact hrc
  · intro hsub
    have hmem : (fr, fc) ∈ Finset.univ.filter
        (fun rc : Fin 8 × Fin 8 => b rc.1 rc.2 = CellState.empty) := by
      simp only [Finset.mem_filter, Finset.mem_univ, true_and]
      exact hbe
    have hcontr := hsub hmem
    simp only [Finset.mem_filter, Finset.mem_univ, true_and] at hcontr
    rw [foldl_setCell_get] at hcontr
    split at hcontr
    · exact absurd hcontr (Player.cell_ne_empty p)
    · simp only [setCell] at hcontr
      rw [if_pos ⟨by omega, by omega⟩] at hcontr
      exact absurd hcontr (Player.cell_ne_empty p)

/-! ### Fuel adequacy: the search recursion always terminates -/

theorem abLoop_isSome (recurse : Board → EInt → EInt → Option (EInt × Option Move))
    (apply : Move → Option Board) (isMax : Bool) :
    ∀ (ms : List Move) (best : EInt) (bm : Option Move) (alpha beta : EInt),
      (∀ mv ∈ ms, ∃ nb, apply mv = some nb ∧
        ∀ a bt, (recurse nb a bt).isSome = true) →
      (abLoop recurse apply isMax ms best bm alpha beta).isSome = true := by
  intro ms
  induction ms with
  | nil => intro best bm alpha beta _; simp [abLoop]
  | cons mv rest ih =>
    intro best bm alpha beta h
    obtain ⟨nb, hnb, hrec⟩ := h mv (List.mem_cons_self _ _)
    rw [abLoop, hnb]
    dsimp only
    have hs := hrec alpha beta
    cases hq : recurse nb alpha beta with
    | none => rw [hq] at hs; simp at hs
    | some q =>
      obtain ⟨s, m0⟩ := q
      dsimp only
      repeat' split
      all_goals first
        | simp
        | exact ih _ _ _ _ (fun mv' hmv' => h mv' (List.mem_cons_of_mem _ hmv'))

theorem npLoop_isSome (recurse : Board → Option (EInt × Option Move))
    (apply : Move → Option Board) (isMax : Bool) :
    ∀ (ms : List Move) (best : EInt) (bm : Option Move),
      (∀ mv ∈ ms, ∃ nb, apply mv = some nb ∧ (recurse nb).isSome = true) →
      (npLoop recurse apply isMax ms best bm).isSome = true := by
  intro ms
  induction ms with
  | nil => intro best bm _; simp [npLoop]
  | cons mv rest ih =>
    intro best bm h
    obtain ⟨nb, hnb, hrec⟩ := h mv (List.mem_cons_self _ _)
    rw [npLoop, hnb]
    dsimp only
    cases hq : recurse nb with
    | none => rw [hq] at hrec; simp at hrec
    | some q =>
      obtain ⟨s, m0⟩ := q
      dsimp only
      exact ih _ _ (fun mv' hmv' => h mv' (List.mem_cons_of_mem _ hmv'))

theorem minimaxF_isSome :
    ∀ (fuel : Nat) (b : Board) (d : Int) (isMax : Bool) (p : Player)
      (alpha beta : EInt), emptyCount b < fuel →
      (minimaxF fuel b d isMax p alpha beta).isSome = true := by
  intro fuel
  induction fuel with
  | zero => intro b d isMax p alpha beta h; exact absurd h (Nat.not_lt_zero _)
  | succ fuel ih =>
    intro b d isMax p alpha beta h
    rw [minimaxF]
    by_cases hterm : d = 0 ∨ getValidMoves b (if isMax = true then p else getOpponent p) = []
    · rw [if_pos hterm]
      simp
    · rw [if_neg hterm]
      apply abLoop_isSome
      intro mv hmv
      have hchar := mem_getValidMoves.mp hmv
      have happ := applyMove_of_valid hchar.1 hchar.2
      refine ⟨_, happ, fun a' bt' => ih _ _ _ _ a' bt' ?_⟩
      have hlt := emptyCount_applyMove hchar.1 hchar.2 happ
      omega

theorem minimaxNPF_isSome :
    ∀ (fuel : Nat) (b : Board) (d : Int) (isMax : Bool) (p : Player),
      emptyCount b < fuel → (minimaxNPF fuel b d isMax p).isSome = true := by
  intro fuel
  induction fuel with
  | zero => intro b d isMax p h; exact absurd h (Nat.not_lt_zero _)
  | succ fuel ih =>
    intro b d isMax p h
    rw [minimaxNPF]
    by_cases hterm : d = 0 ∨ getValidMoves b (if isMax = true then p else getOpponent p) = []
    · rw [if_pos hterm]
      simp
    · rw [if_neg hterm]
      apply npLoop_isSome
      intro mv hmv
      have hchar := mem_getValidMoves.mp hmv
      have happ := applyMove_of_valid hchar.1 hchar.2
      refine ⟨_, happ, ih _ _ _ _ ?_⟩
      have hlt := emptyCount_applyMove hchar.1 hchar.2 happ
      omega

theorem minimaxF_eq_some (b : Board) (d : Int) (isMax : Bool) (p : Player)
    (alpha beta : EInt) :
    minimaxF (emptyCount b + 1) b d isMax p alpha beta =
      some (minimax b d isMax p alpha beta) := by
  have h := minimaxF_isSome (emptyCount b + 1) b d isMax p alpha beta (by omega)
  unfold minimax
  cases hq : minimaxF (emptyCount b + 1) b d isMax p alpha beta with
  | none => rw [hq] at h; simp at h
  | some q => simp

theorem minimaxNPF_eq_some (b : Board) (d : Int) (isMax : Bool) (p : Player) :
    minimaxNPF (emptyCount b + 1) b d isMax p = some (minimaxNP b d isMax p) := by
  have h := minimaxNPF_isSome (emptyCount b + 1) b d isMax p (by omega)
  unfold minimaxNP
  cases hq : minimaxNPF (emptyCount b + 1) b d isMax p with
  | none => rw [hq] at h; simp at h
  | some q => simp

/-! ### Order facts about the extended scores and the clamp operator -/

theorem EInt.negInf_le (x : EInt) : EInt.negInf ≤ x := by
  show EInt.ble .negInf x = true
  cases x <;> rfl

theorem EInt.le_posInf (x : EInt) : x ≤ EInt.posInf := by
  show EInt.ble x .posInf = true
  cases x <;> rfl

theorem EInt.lt_iff_blt {a b : EInt} : a < b ↔ a.blt b = true := Iff.rfl

/-- The value `x` clamped into the window of the two bounds. -/
def eclamp (lo hi x : EInt) : EInt := Min.min hi (Max.max lo x)

/-- The dual form of the clamp; equal to `eclamp` whenever `lo ≤ hi`. -/
def eclampD (lo hi x : EInt) : EInt := Max.max lo (Min.min hi x)

theorem eclamp_id (x : EInt) : eclamp .negInf .posInf x = x := by
  unfold eclamp
  rw [max_eq_right (EInt.negInf_le x), min_eq_right (EInt.le_posInf x)]

theorem blt_update_max (a s : EInt) :
    (if a.blt s = true then s else a) = Max.max a s := by
  by_cases h : a < s
  · rw [if_pos (EInt.lt_iff_blt.mp h), max_eq_right h.le]
  · rw [if_neg (fun hc => h (EInt.lt_iff_blt.mpr hc)), max_eq_left (le_of_not_lt h)]

theorem blt_update_min (a s : EInt) :
    (if s.blt a = true then s else a) = Min.min a s := by
  by_cases h : s < a
  · rw [if_pos (EInt.lt_iff_blt.mp h), min_eq_right h.le]
  · rw [if_neg (fun hc => h (EInt.lt_iff_blt.mpr hc)), min_eq_left (le_of_not_lt h)]

theorem max_max_distrib (a x y : EInt) :
    Max.max a (Max.max x y) = Max.max (Max.max a x) (Max.max a y) := by
  rcases le_total x y with h | h
  · rw [max_eq_right h, max_eq_right (max_le_max (le_refl a) h)]
  · rw [max_eq_left h, max_eq_left (max_le_max (le_refl a) h)]

theorem min_min_distrib (a x y : EInt) :
    Min.min a (Min.min x y) = Min.min (Min.min a x) (Min.min a y) := by
  rcases le_total x y with h | h
  · rw [min_eq_left h, min_eq_left (min_le_min (le_refl a) h)]
  · rw [min_eq_right h, min_eq_right (min_le_min (le_refl a) h)]

theorem eclamp_max_distrib (lo hi x y : EInt) :
    eclamp lo hi (Max.max x y) = Max.max (eclamp lo hi x) (eclamp lo hi y) := by
  unfold eclamp
  rw [max_max_distrib, min_max_distrib_left]

theorem eclampD_min_distrib (lo hi x y : EInt) :
    eclampD lo hi (Min.min x y) = Min.min (eclampD lo hi x) (eclampD lo hi y) := by
  unfold eclampD
  rw [min_min_distrib, max_min_distrib_left]

theorem eclamp_shift_max (lo hi a x : EInt) :
    eclamp (Max.max lo a) hi x = Max.max (eclamp lo hi a) (eclamp lo hi x) := by
  rw [← eclamp_max_distrib]
  unfold eclamp
  rw [max_assoc]

theorem eclampD_shift_min (lo hi a x : EInt) :
    eclampD lo (Min.min hi a) x = Min.min (eclampD lo hi a) (eclampD lo hi x) := by
  rw [← eclampD_min_distrib]
  unfold eclampD
  rw [min_assoc]

theorem eclamp_eq_eclampD {lo hi : EInt} (h : lo ≤ hi) (x : EInt) :
    eclamp lo hi x = eclampD lo hi x := by
  unfold eclamp eclampD
  rcases le_total x lo with h1 | h1
  · rw [max_eq_left h1, min_eq_right h, min_eq_right (h1.trans h), max_eq_left h1]
  · rcases le_total hi x with h2 | h2
    · rw [max_eq_right (h.trans h2), min_eq_left h2]
      exact (max_eq_right h).symm
    · rw [max_eq_right h1, min_eq_right h2]
      exact (max_eq_right h1).symm

theorem eclamp_of_ge {hi x : EInt} (lo : EInt) (hx : hi ≤ x) :
    eclamp lo hi x = hi := by
  unfold eclamp
  rw [min_eq_left (le_trans hx (le_max_right lo x))]

theorem eclamp_of_le {lo hi x : EInt} (hx : x ≤ lo) (hlh : lo ≤ hi) :
    eclamp lo hi x = lo := by
  unfold eclamp
  rw [max_eq_left hx, min_eq_right hlh]

theorem max_absorb (a b s : EInt) :
    Max.max (Max.max a b) (Max.max b s) = Max.max a (Max.max b s) := by
  rw [max_assoc a b (Max.max b s), ← max_assoc b b s, max_self]

theorem min_absorb (a b s : EInt) :
    Min.min (Min.min a b) (Min.min b s) = Min.min a (Min.min b s) := by
  rw [min_assoc a b (Min.min b s), ← min_assoc b b s, min_self]

/-! ### The full-width loop only improves its accumulator -/

theorem npLoop_ge (recurse : Board → Option (EInt × Option Move))
    (apply : Move → Option Board) :
    ∀ (ms : List Move) (best : EInt) (bm : Option Move) (v : EInt)
      (mv : Option Move),
      npLoop recurse apply true ms best bm = some (v, mv) → best ≤ v := by
  intro ms
  induction ms with
  | nil =>
    intro best bm v mv h
    rw [npLoop] at h
    cases Option.some.inj h
    exact le_refl _
  | cons mv0 rest ih =>
    intro best bm v mv h
    rw [npLoop] at h
    cases happ : apply mv0 with
    | none => rw [happ] at h; exact Option.noConfusion h
    | some nb =>
      rw [happ] at h
      dsimp only at h
      cases hrec : recurse nb with
      | none => rw [hrec] at h; exact Option.noConfusion h
      | some q =>
        rw [hrec] at h
        obtain ⟨s, m0⟩ := q
        dsimp only at h
        simp only [reduceIte] at h
        refine le_trans ?_ (ih _ _ _ _ h)
        rw [blt_update_max]
        exact le_max_left _ _

theorem npLoop_le (recurse : Board → Option (EInt × Option Move))
    (apply : Move → Option Board) :
    ∀ (ms : List Move) (best : EInt) (bm : Option Move) (v : EInt)
      (mv : Option Move),
      npLoop recurse apply false ms best bm = some (v, mv) → v ≤ best := by
  intro ms
  induction ms with
  | nil =>
    intro best bm v mv h
    rw [npLoop] at h
    cases Option.some.inj h
    exact le_refl _
  | cons mv0 rest ih =>
    intro best bm v mv h
    rw [npLoop] at h
    cases happ : apply mv0 with
    | none => rw [happ] at h; exact Option.noConfusion h
    | some nb =>
      rw [happ] at h
      dsimp only at h
      cases hrec : recurse nb with
      | none => rw [hrec] at h; exact Option.noConfusion h
      | some q =>
        rw [hrec] at h
        obtain ⟨s, m0⟩ := q
        dsimp only at h
        simp only [Bool.false_eq_true, if_false] at h
        refine le_trans (ih _ _ _ _ h) ?_
        rw [blt_update_min]
        exact min_le_left _ _

/-! ### The pruned loop computes the clamped full-width value -/

theorem abLoop_clamp_max
    (recurse : Board → EInt → EInt → Option (EInt × Option Move))
    (recurseNP : Board → Option (EInt × Option Move))
    (apply : Move → Option Board)
    (hIH : ∀ nb a bt, a < bt → ∀ q, recurseNP nb = some q →
      ∃ r, recurse nb a bt = some r ∧ eclamp a bt r.1 = eclamp a bt q.1) :
    ∀ (ms : List Move) (bestA bestN : EInt) (bmA bmN : Option Move)
      (alpha0 beta : EInt),
      Max.max alpha0 bestA < beta →
      eclamp alpha0 beta bestA = eclamp alpha0 beta bestN →
      ∀ v bm, npLoop recurseNP apply true ms bestN bmN = some (v, bm) →
      ∃ r rm, abLoop recurse apply true ms bestA bmA (Max.max alpha0 bestA) beta
        = some (r, rm) ∧ eclamp alpha0 beta r = eclamp alpha0 beta v := by
  intro ms
  induction ms with
  | nil =>
    intro bestA bestN bmA bmN alpha0 beta hb hclamp v bm hnp
    rw [npLoop] at hnp
    cases Option.some.inj hnp
    exact ⟨bestA, bmA, by rw [abLoop], hclamp⟩
  | cons mv0 rest ih =>
    intro bestA bestN bmA bmN alpha0 beta hb hclamp v bm hnp
    rw [npLoop] at hnp
    cases happ : apply mv0 with
    | none => rw [happ] at hnp; exact Option.noConfusion hnp
    | some nb =>
      rw [happ] at hnp
      dsimp only at hnp
      cases hrecnp : recurseNP nb with
      | none => rw [hrecnp] at hnp; exact Option.noConfusion hnp
      | some qnp =>
        rw [hrecnp] at hnp
        obtain ⟨snp, mnp⟩ := qnp
        dsimp only at hnp
        simp only [reduceIte] at hnp
        rw [blt_update_max] at hnp
        obtain ⟨rq, hrec, hcr⟩ := hIH nb (Max.max alpha0 bestA) beta hb _ hrecnp
        obtain ⟨s, ms0⟩ := rq
        dsimp only at hcr
        rw [abLoop, happ]
        dsimp only
        rw [hrec]
        dsimp only
        simp only [reduceIte]
        rw [blt_update_max, EInt.max_eq, max_absorb]
        have halo : alpha0 < beta := lt_of_le_of_lt (le_max_left _ _) hb
        have hbA : bestA < beta := lt_of_le_of_lt (le_max_right _ _) hb
        have key : Max.max (eclamp alpha0 beta bestA) (eclamp alpha0 beta s) =
            Max.max (eclamp alpha0 beta bestA) (eclamp alpha0 beta snp) := by
          rw [← eclamp_shift_max, ← eclamp_shift_max, hcr]
        have hclamp' : eclamp alpha0 beta (Max.max bestA s) =
            eclamp alpha0 beta (Max.max bestN snp) := by
          rw [eclamp_max_distrib, eclamp_max_distrib, key, hclamp]
        by_cases hp : beta ≤ Max.max alpha0 (Max.max bestA s)
        · have hp2 : EInt.ble beta (Max.max alpha0 (Max.max bestA s)) = true := hp
          rw [if_pos hp2]
          have hsb : beta ≤ s := by
            rcases le_max_iff.mp hp with h | h
            · exact absurd h (not_le_of_lt halo)
            · rcases le_max_iff.mp h with h' | h'
              · exact absurd h' (not_le_of_lt hbA)
              · exact h'
          have hsnpb : beta ≤ snp := by
            have hl : eclamp (Max.max alpha0 bestA) beta s = beta :=
              eclamp_of_ge _ hsb
            rw [hl] at hcr
            have : beta ≤ Max.max (Max.max alpha0 bestA) snp := by
              rw [eclamp] at hcr
              exact min_eq_left_iff.mp hcr.symm
            rcases le_max_iff.mp this with h | h
            · exact absurd h (not_le_of_lt hb)
            · exact h
          have hvb : beta ≤ v :=
            le_trans (le_trans hsnpb (le_max_right bestN snp))
              (npLoop_ge recurseNP apply rest _ _ _ _ hnp)
          refine ⟨Max.max bestA s, _, rfl, ?_⟩
          rw [eclamp_of_ge _ (le_trans hsb (le_max_right bestA s)),
            eclamp_of_ge _ hvb]
        · have hp2 : ¬EInt.ble beta (Max.max alpha0 (Max.max bestA s)) = true := hp
          rw [if_neg hp2]
          have hb' : Max.max alpha0 (Max.max bestA s) < beta := lt_of_not_le hp
          exact ih (Max.max bestA s) (Max.max bestN snp) _ _ alpha0 beta hb'
            hclamp' v bm hnp

theorem eclampD_of_le {lo x : EInt} (hi : EInt) (hx : x ≤ lo) :
    eclampD lo hi x = lo := by
  unfold eclampD
  rw [max_eq_left (le_trans (min_le_right hi x) hx)]

theorem abLoop_clamp_min
    (recurse : Board → EInt → EInt → Option (EInt × Option Move))
    (recurseNP : Board → Option (EInt × Option Move))
    (apply : Move → Option Board)
    (hIH : ∀ nb a bt, a < bt → ∀ q, recurseNP nb = some q →
      ∃ r, recurse nb a bt = some r ∧ eclamp a bt r.1 = eclamp a bt q.1) :
    ∀ (ms : List Move) (bestA bestN : EInt) (bmA bmN : Option Move)
      (alpha beta0 : EInt),
      alpha < Min.min beta0 bestA →
      eclampD alpha beta0 bestA = eclampD alpha beta0 bestN →
      ∀ v bm, npLoop recurseNP apply false ms bestN bmN = some (v, bm) →
      ∃ r rm, abLoop recurse apply false ms bestA bmA alpha (Min.min beta0 bestA)
        = some (r, rm) ∧ eclamp alpha beta0 r = eclamp alpha beta0 v := by
  intro ms
  induction ms with
  | nil =>
    intro bestA bestN bmA bmN alpha beta0 hb hclamp v bm hnp
    rw [npLoop] at hnp
    cases Option.some.inj hnp
    have halo : alpha ≤ beta0 := (lt_of_lt_of_le hb (min_le_left _ _)).le
    refine ⟨bestA, bmA, by rw [abLoop], ?_⟩
    rw [eclamp_eq_eclampD halo, eclamp_eq_eclampD halo, hclamp]
  | cons mv0 rest ih =>
    intro bestA bestN bmA bmN alpha beta0 hb hclamp v bm hnp
    rw [npLoop] at hnp
    cases happ : apply mv0 with
    | none => rw [happ] at hnp; exact Option.noConfusion hnp
    | some nb =>
      rw [happ] at hnp
      dsimp only at hnp
      cases hrecnp : recurseNP nb with
      | none => rw [hrecnp] at hnp; exact Option.noConfusion hnp
      | some qnp =>
        rw [hrecnp] at hnp
        obtain ⟨snp, mnp⟩ := qnp
        dsimp only at hnp
        simp only [Bool.false_eq_true, if_false] at hnp
        rw [blt_update_min] at hnp
        obtain ⟨rq, hrec, hcr⟩ := hIH nb alpha (Min.min beta0 bestA) hb _ hrecnp
        obtain ⟨s, ms0⟩ := rq
        dsimp only at hcr
        have halo : alpha < beta0 := lt_of_lt_of_le hb (min_le_left _ _)
        have hbA : alpha < bestA := lt_of_lt_of_le hb (min_le_right _ _)
        have hcrD : eclampD alpha (Min.min beta0 bestA) s =
            eclampD alpha (Min.min beta0 bestA) snp := by
          rw [← eclamp_eq_eclampD hb.le, ← eclamp_eq_eclampD hb.le, hcr]
        rw [abLoop, happ]
        dsimp only
        rw [hrec]
        dsimp only
        simp only [Bool.false_eq_true, if_false]
        rw [blt_update_min, EInt.min_eq, min_absorb]
        have key : Min.min (eclampD alpha beta0 bestA) (eclampD alpha beta0 s) =
            Min.min (eclampD alpha beta0 bestA) (eclampD alpha beta0 snp) := by
          rw [← eclampD_shift_min, ← eclampD_shift_min, hcrD]
        have hclamp' : eclampD alpha beta0 (Min.min bestA s) =
            eclampD alpha beta0 (Min.min bestN snp) := by
          rw [eclampD_min_distrib, eclampD_min_distrib, key, hclamp]
        by_cases hp : Min.min beta0 (Min.min bestA s) ≤ alpha
        · have hp2 : EInt.ble (Min.min beta0 (Min.min bestA s)) alpha = true := hp
          rw [if_pos hp2]
          have hsa : s ≤ alpha := by
            rcases min_le_iff.mp hp with h | h
            · exact absurd h (not_le_of_lt halo)
            · rcases min_le_iff.mp h with h' | h'
              · exact absurd h' (not_le_of_lt hbA)
              · exact h'
          have hsnpa : snp ≤ alpha := by
            have hl : eclampD alpha (Min.min beta0 bestA) s = alpha :=
              eclampD_of_le _ hsa
            rw [hl] at hcrD
            have hle : Min.min (Min.min beta0 bestA) snp ≤ alpha := by
              rw [eclampD] at hcrD
              exact max_eq_left_iff.mp hcrD.symm
            rcases min_le_iff.mp hle with h | h
            · exact absurd h (not_le_of_lt hb)
            · exact h
          have hva : v ≤ alpha :=
            le_trans (le_trans (npLoop_le recurseNP apply rest _ _ _ _ hnp)
              (min_le_right bestN snp)) hsnpa
          refine ⟨Min.min bestA s, _, rfl, ?_⟩
          rw [eclamp_of_le (le_trans (min_le_right bestA s) hsa) halo.le,
            eclamp_of_le hva halo.le]
        · have hp2 : ¬EInt.ble (Min.min beta0 (Min.min bestA s)) alpha = true := hp
          rw [if_neg hp2]
          have hb' : alpha < Min.min beta0 (Min.min bestA s) := lt_of_not_le hp
          exact ih (Min.min bestA s) (Min.min bestN snp) _ _ alpha beta0 hb'
            hclamp' v bm hnp

/-- The fail-soft alpha-beta recursion computes, inside any open window, the
clamped value of the full-width recursion. -/
theorem minimaxF_clamp :
    ∀ (fuel : Nat) (b : Board) (d : Int) (isMax : Bool) (p : Player)
      (alpha beta : EInt), alpha < beta →
      ∀ q, minimaxNPF fuel b d isMax p = some q →
      ∃ r, minimaxF fuel b d isMax p alpha beta = some r ∧
        eclamp alpha beta r.1 = eclamp alpha beta q.1 := by
  intro fuel
  induction fuel with
  | zero => intro b d isMax p alpha beta hab q hq; exact Option.noConfusion hq
  | succ fuel ih =>
    intro b d isMax p alpha beta hab q hq
    rw [minimaxNPF] at hq
    rw [minimaxF]
    by_cases hterm : d = 0 ∨
        getValidMoves b (if isMax = true then p else getOpponent p) = []
    · rw [if_pos hterm] at hq ⊢
      refine ⟨_, rfl, ?_⟩
      cases Option.some.inj hq
      rfl
    · rw [if_neg hterm] at hq ⊢
      obtain ⟨v, bm⟩ := q
      cases isMax with
      | true =>
        simp only [reduceIte, Bool.not_true] at hq ⊢
        have hb0 : Max.max alpha EInt.negInf < beta := by
          rw [max_eq_left (EInt.negInf_le alpha)]
          exact hab
        obtain ⟨r, rm, heq, hcl⟩ := abLoop_clamp_max
          (fun nb a bt => minimaxF fuel nb (d - 1) false p a bt)
          (fun nb => minimaxNPF fuel nb (d - 1) false p)
          (fun m => applyMove b p m.row m.col)
          (fun nb a bt hlt q' hq' => ih nb (d - 1) false p a bt hlt q' hq')
          (getValidMoves b p) EInt.negInf EInt.negInf
          ((getValidMoves b p).head?) ((getValidMoves b p).head?)
          alpha beta hb0 rfl v bm hq
        rw [max_eq_left (EInt.negInf_le alpha)] at heq
        exact ⟨(r, rm), heq, hcl⟩
      | false =>
        simp only [Bool.false_eq_true, if_false, Bool.not_false] at hq ⊢
        have hb0 : alpha < Min.min beta EInt.posInf := by
          rw [min_eq_left (EInt.le_posInf beta)]
          exact hab
        obtain ⟨r, rm, heq, hcl⟩ := abLoop_clamp_min
          (fun nb a bt => minimaxF fuel nb (d - 1) true p a bt)
          (fun nb => minimaxNPF fuel nb (d - 1) true p)
          (fun m => applyMove b (getOpponent p) m.row m.col)
          (fun nb a bt hlt q' hq' => ih nb (d - 1) true p a bt hlt q' hq')
          (getValidMoves b (getOpponent p)) EInt.posInf EInt.posInf
          ((getValidMoves b (getOpponent p)).head?)
          ((getValidMoves b (getOpponent p)).head?)
          alpha beta hb0 rfl v bm hq
        rw [min_eq_left (EInt.le_posInf beta)] at heq
        exact ⟨(r, rm), heq, hcl⟩

/-! ### The engine `applyMove` and the flow copy agree on legal moves -/

theorem applyMove_eq_flow {b : Board} {p : Player} {row col : Int}
    (he : cellAt b row col = some .empty) (hf : flipsScan b p row col ≠ []) :
    applyMove b p row col = some (applyMoveFlow b p row col) := by
  rw [applyMove_of_valid he hf]
  congr 1
  have hin := inRange_of_cellAt he
  unfold applyMoveFlow
  rw [if_neg (by push_neg; exact ⟨by omega, by omega, by omega, by omega, he⟩)]
  dsimp only
  rw [flipsScan_setCell]

/-! ### Row-major production of the legal move list -/

/-- The 64 cells in the row-major visiting order of the two nested loops. -/
def rowMajorCells : List Move :=
  (List.range 8).flatMap (fun r : Nat =>
    (List.range 8).map (fun c : Nat => ⟨(r : Int), (c : Int)⟩))

theorem filterMap_if_eq_filter (b : Board) (p : Player) (r : Nat) :
    ∀ l : List Nat,
      (l.filterMap (fun c : Nat =>
        if isValidMove b p (r : Int) (c : Int) = some true then
          some ⟨(r : Int), (c : Int)⟩
        else none)) =
      ((l.map (fun c : Nat => (⟨(r : Int), (c : Int)⟩ : Move))).filter
        (fun m => decide (isValidMove b p m.row m.col = some true))) := by
  intro l
  induction l with
  | nil => rfl
  | cons c t ih =>
    rw [List.filterMap_cons, List.map_cons, List.filter_cons]
    by_cases hc : isValidMove b p (r : Int) (c : Int) = some true
    · rw [if_pos hc, ih]
      have hd : decide (isValidMove b p (⟨(r : Int), (c : Int)⟩ : Move).row
          (⟨(r : Int), (c : Int)⟩ : Move).col = some true) = true := by
        simpa using hc
      rw [hd]
      simp
    · rw [if_neg hc, ih]
      have hd : decide (isValidMove b p (⟨(r : Int), (c : Int)⟩ : Move).row
          (⟨(r : Int), (c : Int)⟩ : Move).col = some true) = false := by
        simpa using hc
      rw [hd]
      simp

theorem getValidMoves_eq_rowMajor_filter (b : Board) (p : Player) :
    getValidMoves b p = rowMajorCells.filter
      (fun m => decide (isValidMove b p m.row m.col = some true)) := by
  unfold getValidMoves rowMajorCells
  rw [List.filter_flatMap]
  simp only [filterMap_if_eq_filter b p]

/-! ### Concrete boards used by the claim instances -/

/-- A board with a single Black disc in the corner (0,0), all else empty. -/
def singleCornerBoard : Board := setCell (fun _ _ => .empty) 0 0 .black

/-- A board with Black at (3,3) and White at (3,4): Black has exactly one
legal move, (3,5). -/
def twoDiscBoard : Board :=
  setCell (setCell (fun _ _ => .empty) 3 3 .black) 3 4 .white

/-- A board that is all Black except a White disc at (0,1) and one empty
cell at (0,2): Black has exactly one legal move, after which the board is
full. -/
def almostFullBoard : Board :=
  fun r c =>
    if r = 0 ∧ c = 1 then .white else if r = 0 ∧ c = 2 then .empty else .black

/-! ### The claims -/

/-- C1: for every board, every integer depth, every maximizing flag and
every perspective player, the score returned by `minimax` with the initial
window `alpha = -Infinity`, `beta = +Infinity` is numerically identical to
the score of the same recursion with alpha-beta pruning disabled (full
width, same move order, same leaf evaluation): pruning never changes the
returned root score. -/
theorem C1_pruning_never_changes_root_score (b : Board) (d : Int)
    (isMax : Bool) (p : Player) :
    (minimax b d isMax p .negInf .posInf).1 = (minimaxNP b d isMax p).1 := by
  obtain ⟨r, hr, hcl⟩ := minimaxF_clamp (emptyCount b + 1) b d isMax p
    .negInf .posInf (by decide) _ (minimaxNPF_eq_some b d isMax p)
  rw [minimaxF_eq_some] at hr
  rw [eclamp_id, eclamp_id] at hcl
  rw [Option.some.inj hr]
  exact hcl

/-- C2 counterexample: on the board with Black (3,3) and White (3,4), the
single legal Black move (3,5) at difficulty 1 is scored by the rating flow
with the opponent as perspective (value -3), not by the search from the
mover perspective prescribed by the claim (value +3). -/
theorem C2_counterexample :
    (rateMoveScores twoDiscBoard .black 1).head? ≠
      some (minimax ((applyMove twoDiscBoard .black 3 5).getD twoDiscBoard)
        1 false .black .negInf .posInf).1 := by
  decide

/-- C2 amended: each per-move value of the rating flow equals the engine
search of the engine-applied child at depth `max(difficulty - 1, 1)`, as a
minimizing node, with the *opponent of the mover* as the perspective
player. -/
theorem C2_rating_uses_opponent_perspective (b : Board) (p : Player)
    (d : Int) :
    rateMoveScores b p d = (getValidMoves b p).map (fun m =>
      (minimax ((applyMove b p m.row m.col).getD b) (Max.max (d - 1) 1) false
        (getOpponent p) .negInf .posInf).1) := by
  unfold rateMoveScores
  apply List.map_congr_left
  intro m hm
  obtain ⟨he, hf⟩ := mem_getValidMoves.mp hm
  dsimp only
  rw [applyMove_eq_flow he hf]
  have hdepth : (if 1 < d then d - 1 else 1) = Max.max (d - 1) 1 := by
    by_cases h : 1 < d
    · rw [if_pos h, (max_eq_left (by omega) : Max.max (d - 1) 1 = d - 1)]
    · rw [if_neg h, (max_eq_right (by omega) : Max.max (d - 1) 1 = 1)]
  rw [hdepth, Option.getD_some]

/-- C3 counterexample: `applyMove` on the occupied cell (3,3) of the initial
board is not a no-op: it overwrites the White disc with a Black one. -/
theorem C3_counterexample :
    applyMove createInitialBoard .black 3 3 ≠ some createInitialBoard := by
  decide

/-- C3 amended: for an in-range target cell, `applyMove` is a silent no-op
exactly when the cell is empty with zero flips; when the cell is already
occupied it instead returns a copy whose target cell is overwritten with the
mover color (no flips, all other cells unchanged). -/
theorem C3_applyMove_noop_only_when_empty (b : Board) (p : Player)
    (row col : Int) (h0r : 0 ≤ row) (hr8 : row < 8) :
    (cellAt b row col = some .empty → flipsScan b p row col = [] →
      applyMove b p row col = some b) ∧
    (cellAt b row col ≠ some .empty →
      applyMove b p row col = some (setCell b row col p.cell)) :=
  ⟨fun he hf => applyMove_of_no_flips he hf,
    fun ho => applyMove_of_occupied ⟨h0r, hr8⟩ ho⟩

/-- C3 witness: the amended claim evaluated on the initial board: the
occupied cell (3,3) is overwritten, and (0,0) (empty, zero flips) is a
no-op. -/
theorem C3_applyMove_noop_only_when_empty_witness :
    applyMove createInitialBoard .black 3 3 =
      some (setCell createInitialBoard 3 3 Player.black.cell) ∧
    applyMove createInitialBoard .black 0 0 = some createInitialBoard :=
  ⟨(C3_applyMove_noop_only_when_empty createInitialBoard .black 3 3
      (by decide) (by decide)).2 (by decide),
    (C3_applyMove_noop_only_when_empty createInitialBoard .black 0 0
      (by decide) (by decide)).1 (by decide) (by decide)⟩

/-- C4: the code evaluated at the failing input: a row out of range makes
`board[row][col]` fault (the `none` of the model), contradicting the claim
and the repo test that expects `false`; a col out of range with the row in
range does return the empty flip list and `false`. -/
theorem C4_row_out_of_range_faults :
    getFlipsForMove createInitialBoard .black (-1) 0 = none ∧
    isValidMove createInitialBoard .black (-1) 0 = none ∧
    isValidMove createInitialBoard .black 8 0 = none ∧
    getFlipsForMove createInitialBoard .black 0 (-1) = some [] ∧
    isValidMove createInitialBoard .black 0 8 = some false := by
  decide

/-- C5 counterexample: the board with a single Black disc at (0,0) does not
evaluate to 51 for Black. -/
theorem C5_counterexample : evaluateBoard singleCornerBoard .black ≠ 51 := by
  decide

/-- C5 amended: the board with a single Black disc at (0,0) evaluates to 26
for Black: piece difference 1 plus corner bonus 25 (the corner weight in the
code is 25, not 50), mobility 0, edge 0, and no X-square term exists. -/
theorem C5_corner_evaluation : evaluateBoard singleCornerBoard .black = 26 ∧
    evaluateBoard singleCornerBoard .black = 1 + 25 := by
  decide

/-- C6: the code evaluated at the failing input: at depth -1 on a board
where Black has one legal move, `minimax` does not return the terminal
evaluation with no move (the claim and the repo negative-depth test expect
exactly that); it recurses through the move and returns it. -/
theorem C6_negative_depth_recurses :
    minimax almostFullBoard (-1) true .black .negInf .posInf ≠
      (.fin (evaluateBoard almostFullBoard .black), none) ∧
    minimax almostFullBoard (-1) true .black .negInf .posInf =
      (.fin 284, some ⟨0, 2⟩) := by
  decide

/-- C7: a cell is a legal move iff it is empty and has a non-empty flip
list; the returned list is exactly the row-major cell enumeration filtered
by legality (hence row-major order, and the empty list, never an error,
when no move exists); on the initial board Black has exactly (2,3), (3,2),
(4,5), (5,4), in this order. -/
theorem C7_getValidMoves_spec :
    (∀ (b : Board) (p : Player) (m : Move), m ∈ getValidMoves b p ↔
      cellAt b m.row m.col = some CellState.empty ∧
      flipsScan b p m.row m.col ≠ []) ∧
    (∀ (b : Board) (p : Player), getValidMoves b p = rowMajorCells.filter
      (fun m => decide (isValidMove b p m.row m.col = some true))) ∧
    getValidMoves createInitialBoard .black =
      [⟨2, 3⟩, ⟨3, 2⟩, ⟨4, 5⟩, ⟨5, 4⟩] :=
  ⟨fun _ _ _ => mem_getValidMoves, getValidMoves_eq_rowMajor_filter, by decide⟩

/-- C8: frame of `applyMove` on a legal move: the returned board equals the
input board at every cell except the target cell and the flipped cells,
each set to the mover color.  (The input board value itself is never
mutated: every operation of the embedding is a pure function.) -/
theorem C8_applyMove_frame (b : Board) (p : Player) (row col : Int)
    (he : cellAt b row col = some .empty)
    (hf : flipsScan b p row col ≠ []) :
    ∃ nb, applyMove b p row col = some nb ∧ ∀ r c : Fin 8,
      nb r c = if ((r : Int) = row ∧ (c : Int) = col) ∨
        (⟨(r : Int), (c : Int)⟩ : Move) ∈ flipsScan b p row col then p.cell
      else b r c := by
  refine ⟨_, applyMove_of_valid he hf, ?_⟩
  intro r c
  rw [foldl_setCell_get]
  by_cases hm : (⟨(r : Int), (c : Int)⟩ : Move) ∈ flipsScan b p row col
  · rw [if_pos hm, if_pos (Or.inr hm)]
  · rw [if_neg hm]
    simp only [setCell]
    by_cases ht : ((r : Int) = row ∧ (c : Int) = col)
    · rw [if_pos ht, if_pos (Or.inl ht)]
    · rw [if_neg ht, if_neg]
      rintro (h | h)
      · exact ht h
      · exact hm h

/-- C8 witness: the frame statement instantiated on the Black opening move
(2,3) of the initial board. -/
theorem C8_applyMove_frame_witness :
    ∃ nb, applyMove createInitialBoard .black 2 3 = some nb ∧ ∀ r c : Fin 8,
      nb r c = if ((r : Int) = 2 ∧ (c : Int) = 3) ∨
        (⟨(r : Int), (c : Int)⟩ : Move) ∈ flipsScan createInitialBoard .black 2 3
      then Player.black.cell else createInitialBoard r c :=
  C8_applyMove_frame createInitialBoard .black 2 3 (by decide) (by decide)

/-- C9: termination: the fuel-indexed search recursion, started with one
more unit of fuel than the number of empty cells, never exhausts its fuel
(for every depth, including zero and negative values, and every window),
because each recursive call applies a legal move, which strictly decreases
the number of empty cells. -/
theorem C9_minimax_terminates (b : Board) (d : Int) (isMax : Bool)
    (p : Player) (alpha beta : EInt) :
    (minimaxF (emptyCount b + 1) b d isMax p alpha beta =
      some (minimax b d isMax p alpha beta)) ∧
    (∀ (cur : Player) (m : Move) (nb : Board), m ∈ getValidMoves b cur →
      applyMove b cur m.row m.col = some nb →
      emptyCount nb < emptyCount b) :=
  ⟨minimaxF_eq_some b d isMax p alpha beta,
    fun _ _ _ hm happ =>
      emptyCount_applyMove (mem_getValidMoves.mp hm).1
        (mem_getValidMoves.mp hm).2 happ⟩

/-- C9 witness: termination on the initial board at depth 3, and the empty
count decrease for the opening move (2,3). -/
theorem C9_minimax_terminates_witness :
    (minimaxF (emptyCount createInitialBoard + 1) createInitialBoard 3 true
      .black .negInf .posInf = some (minimax createInitialBoard 3 true .black
      .negInf .posInf)) ∧
    emptyCount ((applyMove createInitialBoard .black 2 3).getD
      createInitialBoard) < emptyCount createInitialBoard :=
  ⟨(C9_minimax_terminates createInitialBoard 3 true .black .negInf
      .posInf).1,
    (C9_minimax_terminates createInitialBoard 3 true .black .negInf
      .posInf).2 .black ⟨2, 3⟩ _ (by decide) (by decide)⟩

/-- C10 counterexample: on the empty in-range cell (0,0) of the initial
board (zero flips), the flow private `applyMove` places the disc while the
engine `applyMove` returns the board unchanged, so the two results are not
structurally equal. -/
theorem C10_counterexample :
    some (applyMoveFlow createInitialBoard .black 0 0) ≠
      applyMove createInitialBoard .black 0 0 := by
  decide

/-- C10 amended: the flow private `applyMove` and the engine `applyMove`
return structurally equal boards on every legal move (in-range empty cell
with a non-empty flip list); on empty cells with zero flips they differ. -/
theorem C10_flow_applyMove_eq_engine (b : Board) (p : Player) (row col : Int)
    (he : cellAt b row col = some .empty)
    (hf : flipsScan b p row col ≠ []) :
    applyMove b p row col = some (applyMoveFlow b p row col) :=
  applyMove_eq_flow he hf

/-- C10 witness: the two apply functions agree on the Black opening move
(2,3) of the initial board. -/
theorem C10_flow_applyMove_eq_engine_witness :
    applyMove createInitialBoard .black 2 3 =
      some (applyMoveFlow createInitialBoard .black 2 3) :=
  C10_flow_applyMove_eq_engine createInitialBoard .black 2 3 (by decide)
    (by decide)

end OthelloDojo
